import Mathlib

/-!
Verification development for the `codeplan` CLI tool.

The repository is TypeScript; we shallowly embed the pure core of each
function under scrutiny.  JavaScript strings are embedded as `List Char`
(code-unit lists), JS objects with string keys as insertion-ordered
association lists, JS `Map` as an association list, numeric token counts as
`Nat`, epoch-millisecond timestamps as `Int`, and dollar amounts as `ℚ`
(exact arithmetic in place of IEEE floats; no claim depends on rounding).
`Array.prototype.sort` (a stable sort) is embedded as `List.mergeSort`,
which is the unique stable sort for a total preorder comparator.
-/

namespace Codeplan

/-- A JavaScript string, embedded as its list of characters. -/
abbrev Str := List Char

/-- A single path segment (the text between `/` separators). -/
abbrev Seg := List Char

/-- A path as a list of segments. -/
abbrev Parts := List Seg

/-- Embedding of JS `String.prototype.split("/")` (single-character
separator): accumulate the current segment in `acc` (reversed) and cut at
every `'/'`.  `"".split("/")` is `[""]`, `"/a".split("/")` is `["", "a"]`,
mirroring JavaScript. -/
def splitAux : Str → Str → List Seg
  | [], acc => [acc.reverse]
  | c :: cs, acc =>
    if c = '/' then acc.reverse :: splitAux cs [] else splitAux cs (c :: acc)

/-- JS `path.split("/")`. -/
def jsSplit (p : Str) : List Seg := splitAux p []

/-- Source: `path.split("/").filter((part) => part !== "")` — the segment
list `createTree` actually inserts (identical in all variants). -/
def splitPath (p : Str) : Parts := (jsSplit p).filter (fun s => !s.isEmpty)

/-- Embedding of the TS type `Tree = { [key: string]: Tree }`: a JS object
is an insertion-ordered association list from keys to subtrees. -/
inductive Tree where
  | node : List (Seg × Tree) → Tree

/-- The children association list of a tree node. -/
def Tree.children : Tree → List (Seg × Tree)
  | .node cs => cs

/-- JS property read `current[part]` with the `|| {}` default: first
matching key, or the empty object. -/
def getChild : List (Seg × Tree) → Seg → Tree
  | [], _ => .node []
  | (k, t) :: rest, s => if k = s then t else getChild rest s

/-- JS property write `current[part] = v`: overwriting an existing key
keeps its position, a fresh key is appended at the end (JS object key
order). -/
def setChild : List (Seg × Tree) → Seg → Tree → List (Seg × Tree)
  | [], s, t => [(s, t)]
  | (k, u) :: rest, s, t =>
    if k = s then (k, t) :: rest else (k, u) :: setChild rest s t

/-- One `paths.forEach` iteration of the source `createTree`: walk the
segment list, materialising each level with `current[part] = current[part]
|| {}`.  The in-place JS mutation is rendered functionally by rebuilding
the spine with `setChild`. -/
def insertParts : Parts → Tree → Tree
  | [], t => t
  | s :: rest, .node cs => .node (setChild cs s (insertParts rest (getChild cs s)))

/-- Source `createTree(paths)` (identical in `src/index.ts`,
`src/unnamed/part_000` and `src/unnamed/part_001`). -/
def createTree (paths : List Str) : Tree :=
  paths.foldl (fun t p => insertParts (splitPath p) t) (.node [])

mutual
/-- Root-to-leaf paths contributed by a list of children (the flattening
the claim describes; the source has no inverse function, so this is the
claim's notion of reading the tree back). -/
def flattenF : List (Seg × Tree) → List Parts
  | [] => []
  | (k, t) :: cs => flattenT k t ++ flattenF cs

/-- Root-to-leaf paths of the subtree `t` reached through edge `k`; a
node with no children is a leaf. -/
def flattenT (k : Seg) : Tree → List Parts
  | .node [] => [[k]]
  | .node (c :: cs) => (flattenF (c :: cs)).map (fun l => k :: l)
end

/-- All root-to-leaf segment paths of a tree; the empty tree has none. -/
def flatten : Tree → List Parts
  | .node cs => flattenF cs

/-- Proposition that `l₁` is a proper prefix of `l₂` (strictly shorter initial run). -/
def properPre (l₁ l₂ : Parts) : Prop := ∃ r, r ≠ [] ∧ l₁ ++ r = l₂

/-- Boolean test for `properPre`. -/
def properPreB : Parts → Parts → Bool
  | [], l₂ => !l₂.isEmpty
  | _ :: _, [] => false
  | a :: l₁, b :: l₂ => a == b && properPreB l₁ l₂

/-- Rejoin a segment list with `/` separators (inverse of `splitPath` on
canonical paths). -/
def joinSegs : Parts → Str
  | [] => []
  | [s] => s
  | s :: rest => s ++ '/' :: joinSegs rest

/-- The `filesWithTokens: Map<string, number>` argument of
`printTreeWithTokens`: an association list from full paths to token
counts (counts embedded as `Nat`; only their ordering and zero-ness
matter to any claim). -/
abbrev TokenMap := List (Str × Nat)

/-- JS `Map.prototype.get`: `some` of the first entry for the key, else
`none` (`undefined`). -/
def mapGet (m : TokenMap) (p : Str) : Option Nat :=
  match m with
  | [] => none
  | (k, v) :: rest => if k = p then some v else mapGet rest p

/-- Source `filesWithTokens.get(fullPath) || 0`: an absent key — and a
recorded zero — count as `0`. -/
def tokOr0 (m : TokenMap) (p : Str) : Nat := (mapGet m p).getD 0

/-- Source `` path ? `${path}/${a}` : a ``: the full path of child `k`
under `path` (the empty string is falsy in JS). -/
def joinPath (path : Str) (k : Seg) : Str :=
  if path = [] then k else path ++ '/' :: k

/-- The comparator of `printTreeWithTokens`
(`(a, b) => tokensB - tokensA`): `a` may precede `b` iff `b`'s recorded
count does not exceed `a`'s. -/
def childLe (m : TokenMap) (path : Str) (a b : Seg × Tree) : Bool :=
  decide (tokOr0 m (joinPath path b.1) ≤ tokOr0 m (joinPath path a.1))

/-- Source `Object.keys(tree).sort((a, b) => tokensB - tokensA)` followed
by indexing `tree[key]`.  A JS object's keys are distinct, so sorting the
keys and re-indexing equals stably sorting the entry list; JS
`Array.prototype.sort` is stable, and for a consistent comparator the
stable sort is unique, so `List.mergeSort` (a stable sort) is the
faithful embedding. -/
def sortChildren (m : TokenMap) (path : Str) (cs : List (Seg × Tree)) :
    List (Seg × Tree) :=
  cs.mergeSort (childLe m path)

/-- Source `` ` (${(tokens / 1000).toFixed(2)}k)` `` — the token count in
thousands to two decimals (rendered here with exact round-half-up in
place of the float rounding of `toFixed`; no claim depends on the
digits). -/
def dispTokens (tokens : Nat) : Str :=
  let hundredths := (tokens + 5) / 10
  " (".data ++ (Nat.repr (hundredths / 100)).data ++ ['.'] ++
    (if hundredths % 100 < 10 then ['0'] else []) ++
    (Nat.repr (hundredths % 100)).data ++ "k)".data

/-- Source `printTreeWithTokens` (`src/unnamed/part_000` lines 108-140):
render children in descending recorded-token order; a child whose full
path has no recorded count (or a zero count — `tokens ?` is falsy on 0)
gets no token suffix. -/
def printTreeWithTokens (m : TokenMap) (t : Tree) (path indent : Str) : Str :=
  match t with
  | .node cs =>
    ((sortChildren m path cs).attach.map (fun e =>
      let k := e.1.1
      let fullPath := joinPath path k
      let tokenDisplay : Str :=
        match mapGet m fullPath with
        | some n => if n = 0 then [] else dispTokens n
        | none => []
      indent ++ k ++ tokenDisplay ++ ['\n'] ++
        printTreeWithTokens m e.1.2 fullPath (indent ++ [' ', ' ']))).foldl
      (fun a b => a ++ b) []
termination_by sizeOf t
decreasing_by
  have h1 : e.1 ∈ cs := (List.mem_mergeSort).mp e.2
  have h2 := List.sizeOf_lt_of_mem h1
  obtain ⟨⟨k0, c0⟩, he⟩ := e
  simp_all
  omega

mutual
/-- Comparison definition following the claim's words (the source has no
such function): the aggregate token count of the subtree at full path
`fp` — its own recorded count plus the aggregates of all children. -/
def aggT (m : TokenMap) (fp : Str) : Tree → Nat
  | .node cs => tokOr0 m fp + aggF m fp cs

/-- Sum of the aggregate token counts of a children list under `fp`. -/
def aggF (m : TokenMap) (fp : Str) : List (Seg × Tree) → Nat
  | [] => 0
  | (k, t) :: cs => aggT m (joinPath fp k) t + aggF m fp cs
end

/-- JS default string comparison (`<`/`>` on UTF-16 code units),
non-strict: `lexLe a b` iff `a` sorts no later than `b`. -/
def lexLe : Str → Str → Bool
  | [], _ => true
  | _ :: _, [] => false
  | a :: as, b :: bs => if a = b then lexLe as bs else decide (a < b)

/-- Source `getFilesPaths` of `src/unnamed/part_000` (lines 142-151) and
`part_001`: `globby(...).then((files) => files.sort())`.  The glob
library is out of scope; its result list is the parameter, and the
default `sort()` (stable, default string comparator) is
`mergeSort lexLe`. -/
def getFilesPathsV0 (globbed : List Str) : List Str := globbed.mergeSort lexLe

/-- Source `getFilesPaths` of `src/index.ts` (lines 119-123): returns the
glob library's list unchanged — no `.sort()`. -/
def getFilesPathsIdx (globbed : List Str) : List Str := globbed

/-- One content segment of the assembled request: its text and whether it
carries a `cache_control: { type: "ephemeral" }` marker. -/
structure Segment where
  text : Str
  cached : Bool
deriving DecidableEq

/-- Source `` `<file_tree>\n${printTree(tree)}\n</file_tree>` ``. -/
def fileTreeWrap (s : Str) : Str := "<file_tree>\n".data ++ s ++ "\n</file_tree>".data

/-- Source `` `<user_prompt>${prompt}</user_prompt>` `` (part_000/part_001). -/
def userWrap (p : Str) : Str := "<user_prompt>".data ++ p ++ "</user_prompt>".data

/-- Source `` `<rules>${...}\n}</rules>` `` (part_000). -/
def rulesWrap (s : Str) : Str := "<rules>".data ++ s ++ "\n\x7d</rules>".data

/-- Source `` `<files>\n${...}\n</files>` `` (part_000). -/
def filesWrap (s : Str) : Str := "<files>\n".data ++ s ++ "\n</files>".data

/-- The user-message content list built by `main` in `src/index.ts`
(lines 294-315): the raw prompt text FIRST and unmarked, then the
file-tree block and the non-empty recency blocks (`filter(Boolean)` drops
empty strings), each cache-marked. -/
def assembleIdx (promptText treeStr todayC lastWeekC beforeC : Str) : List Segment :=
  ⟨promptText, false⟩ :: ⟨fileTreeWrap treeStr, true⟩ ::
    ([todayC, lastWeekC, beforeC].filter (fun s => !s.isEmpty)).map (fun s => ⟨s, true⟩)

/-- The user-message content list built by `main` in
`src/unnamed/part_000` (lines 367-392): rules, file tree and files blocks
cache-marked, the wrapped user prompt last and unmarked. -/
def assembleV0 (rulesText treeStr filesText prompt : Str) : List Segment :=
  [⟨rulesWrap rulesText, true⟩, ⟨fileTreeWrap treeStr, true⟩,
    ⟨filesWrap filesText, true⟩, ⟨userWrap prompt, false⟩]

/-- The user-message content list built by `main` in
`src/unnamed/part_001` (lines 656-685): before/lastWeek/today blocks and
the file tree cache-marked, the wrapped user prompt last and unmarked,
then `filter((block) => block.text.length > 0)` drops empty segments. -/
def assembleV1 (beforeText lastWeekText todayText treeStr prompt : Str) : List Segment :=
  ([⟨beforeText, true⟩, ⟨lastWeekText, true⟩, ⟨todayText, true⟩,
    ⟨fileTreeWrap treeStr, true⟩, ⟨userWrap prompt, false⟩]).filter
    (fun s => !s.text.isEmpty)

/-- A streamed event: a thinking-phase chunk or a text-phase chunk. -/
inductive Ev where
  | think (s : Str)
  | text (s : Str)
deriving DecidableEq

/-- One item written to the terminal by the stream handlers: the
`<THINKING>` marker, the `</THINKING>` marker, or a relayed chunk
(tagged by the phase that produced it). -/
inductive Out where
  | markOpen
  | markClose
  | thinkOut (s : Str)
  | textOut (s : Str)
deriving DecidableEq

/-- The `state` variable of the stream consumers:
`"thinking" | "text" | null`. -/
inductive StState where
  | start
  | thinking
  | text
deriving DecidableEq

/-- The `.on("thinking")`/`.on("text")` handlers of
`src/unnamed/part_000` (lines 457-475): open the marker once from the
initial state, close it once on the first text chunk after thinking. -/
def stepV0 : StState → Ev → StState × List Out
  | st, .think s =>
    if st = .start then (.thinking, [.markOpen, .thinkOut s]) else (st, [.thinkOut s])
  | st, .text s =>
    if st = .thinking then (.text, [.markClose, .textOut s])
    else if st = .start then (.text, [.textOut s])
    else (st, [.textOut s])

/-- The handlers of `src/index.ts` (lines 325-341): identical except the
text handler never records the text phase from the initial state. -/
def stepIdx : StState → Ev → StState × List Out
  | st, .think s =>
    if st = .start then (.thinking, [.markOpen, .thinkOut s]) else (st, [.thinkOut s])
  | st, .text s =>
    if st = .thinking then (.text, [.markClose, .textOut s]) else (st, [.textOut s])

/-- Run the part_000 handlers over an event sequence from state `st`,
collecting terminal output in order. -/
def runFromV0 (st : StState) : List Ev → StState × List Out
  | [] => (st, [])
  | e :: evs =>
    let r := stepV0 st e
    let rest := runFromV0 r.1 evs
    (rest.1, r.2 ++ rest.2)

/-- Run the index.ts handlers over an event sequence from state `st`. -/
def runFromIdx (st : StState) : List Ev → StState × List Out
  | [] => (st, [])
  | e :: evs =>
    let r := stepIdx st e
    let rest := runFromIdx r.1 evs
    (rest.1, r.2 ++ rest.2)

/-- Terminal output of a whole stream under the part_000 handlers. -/
def outV0 (evs : List Ev) : List Out := (runFromV0 .start evs).2

/-- Terminal output of a whole stream under the index.ts handlers. -/
def outIdx (evs : List Ev) : List Out := (runFromIdx .start evs).2

/-- Embedding of the TS `FileData` record as consumed by
`splitFilesByDate` (`src/index.ts`): a path, an epoch-millisecond
modification time (JS number, embedded as `Int`) and the file content. -/
structure FileData where
  path : Str
  lastModified : Int
  content : Str
deriving DecidableEq

/-- Source `const dayMs = 24 * 60 * 60 * 1000`. -/
def dayMs : Int := 24 * 60 * 60 * 1000

/-- Result record of `splitFilesByDate`. -/
structure SplitFiles where
  today : List FileData
  lastWeek : List FileData
  before : List FileData

/-- Source `splitFilesByDate` (`src/index.ts` lines 154-174; identical in
`src/unnamed/part_001`).  The source reads `Date.now()` itself; the
embedding takes that instant as the explicit parameter `now`. -/
def splitFilesByDate (now : Int) (files : List FileData) : SplitFiles :=
  { today := files.filter fun f => decide (now - f.lastModified < dayMs)
    lastWeek := files.filter fun f =>
      decide (now - f.lastModified ≥ dayMs) && decide (now - f.lastModified < 7 * dayMs)
    before := files.filter fun f => decide (now - f.lastModified ≥ 7 * dayMs) }

/-- Embedding of the SDK `Usage` record destructured by
`calculateTokenUsageAndCost`; the two cache counters are optional in the
wire type (`?? 0` in the source). -/
structure Usage where
  input_tokens : Nat
  cache_creation_input_tokens : Option Nat
  cache_read_input_tokens : Option Nat
  output_tokens : Nat

/-- Source `const INPUT_PRICE_PER_M = 3.0`. -/
def INPUT_PRICE_PER_M : ℚ := 3
/-- Source `const CACHE_WRITE_PRICE_PER_M = 3.75`. -/
def CACHE_WRITE_PRICE_PER_M : ℚ := 375 / 100
/-- Source `const CACHE_READ_PRICE_PER_M = 0.3`. -/
def CACHE_READ_PRICE_PER_M : ℚ := 3 / 10
/-- Source `const OUTPUT_PRICE_PER_M = 15.0`. -/
def OUTPUT_PRICE_PER_M : ℚ := 15

/-- Return record of `calculateTokenUsageAndCost`; dollar amounts are
embedded as exact rationals in place of IEEE doubles. -/
structure CostBreakdown where
  totalInputTokens : Nat
  inputTokens : Nat
  cacheCreationTokens : Nat
  cacheReadTokens : Nat
  outputTokens : Nat
  inputCost : ℚ
  cacheWriteCost : ℚ
  cacheReadCost : ℚ
  outputCost : ℚ
  totalCost : ℚ

/-- Source `calculateTokenUsageAndCost` (`src/index.ts` lines 176-208;
identical in both `src/unnamed` parts). -/
def calculateTokenUsageAndCost (u : Usage) : CostBreakdown :=
  let inputTokens := u.input_tokens
  let cacheCreationTokens := u.cache_creation_input_tokens.getD 0
  let cacheReadTokens := u.cache_read_input_tokens.getD 0
  let outputTokens := u.output_tokens
  let inputCost : ℚ := ((inputTokens : ℚ) / 1000000) * INPUT_PRICE_PER_M
  let cacheWriteCost : ℚ := ((cacheCreationTokens : ℚ) / 1000000) * CACHE_WRITE_PRICE_PER_M
  let cacheReadCost : ℚ := ((cacheReadTokens : ℚ) / 1000000) * CACHE_READ_PRICE_PER_M
  let outputCost : ℚ := ((outputTokens : ℚ) / 1000000) * OUTPUT_PRICE_PER_M
  { totalInputTokens := inputTokens + cacheCreationTokens + cacheReadTokens
    inputTokens := inputTokens
    cacheCreationTokens := cacheCreationTokens
    cacheReadTokens := cacheReadTokens
    outputTokens := outputTokens
    inputCost := inputCost
    cacheWriteCost := cacheWriteCost
    cacheReadCost := cacheReadCost
    outputCost := outputCost
    totalCost := inputCost + cacheWriteCost + cacheReadCost + outputCost }

/-- A usage record with every (defaulted) counter doubled. -/
def doubleUsage (u : Usage) : Usage :=
  { input_tokens := 2 * u.input_tokens
    cache_creation_input_tokens := u.cache_creation_input_tokens.map (2 * ·)
    cache_read_input_tokens := u.cache_read_input_tokens.map (2 * ·)
    output_tokens := 2 * u.output_tokens }

/-- The file-system facts `src/unnamed/part_000`'s `main` touches before
the streaming request. -/
structure FsState where
  responseExists : Bool
  promptExists : Bool
deriving DecidableEq

/-- Where the `main` prologue of `src/unnamed/part_000` stops. -/
inductive Halt where
  | exitKey
  | exitNoPrompt
  | proceed
deriving DecidableEq

/-- Outcome of the prologue: where it halted and the file-system state at
that point. -/
structure ProRes where
  halt : Halt
  fs : FsState
deriving DecidableEq

/-- Embedding of the `main` prologue of `src/unnamed/part_000` (lines
236-278), in source order: (1) if `ANTHROPIC_API_KEY` is absent, print a
remediation message and exit 1; (2) otherwise delete `response.md` if it
exists; (3) then fail if `prompt.md` is missing. -/
def mainPrologueV0 (hasApiKey : Bool) (fs : FsState) : ProRes :=
  if !hasApiKey then ⟨.exitKey, fs⟩
  else
    let fs1 : FsState := { fs with responseExists := false }
    if !fs1.promptExists then ⟨.exitNoPrompt, fs1⟩
    else ⟨.proceed, fs1⟩

theorem properPreB_iff : ∀ l₁ l₂ : Parts, properPreB l₁ l₂ = true ↔ properPre l₁ l₂
  | [], l₂ => by
    cases l₂ with
    | nil =>
      simp [properPreB, properPre]
    | cons b bs =>
      simp only [properPreB, List.isEmpty_cons, Bool.not_false, true_iff]
      exact ⟨b :: bs, by simp, rfl⟩
  | a :: l₁, [] => by
    simp only [properPreB, properPre, Bool.false_eq_true, false_iff]
    rintro ⟨r, hr, h⟩
    simp at h
  | a :: l₁, b :: l₂ => by
    simp only [properPreB, Bool.and_eq_true, beq_iff_eq]
    rw [properPreB_iff l₁ l₂]
    constructor
    · rintro ⟨rfl, r, hr, rfl⟩
      exact ⟨r, hr, rfl⟩
    · rintro ⟨r, hr, h⟩
      simp only [List.cons_append, List.cons.injEq] at h
      exact ⟨h.1, r, hr, h.2⟩

instance : DecidablePred fun p : Parts × Parts => properPre p.1 p.2 := fun p =>
  decidable_of_iff (properPreB p.1 p.2 = true) (properPreB_iff p.1 p.2)

instance (l₁ l₂ : Parts) : Decidable (properPre l₁ l₂) :=
  decidable_of_iff (properPreB l₁ l₂ = true) (properPreB_iff l₁ l₂)

theorem flattenF_append : ∀ a b : List (Seg × Tree), flattenF (a ++ b) = flattenF a ++ flattenF b
  | [], _ => rfl
  | (k, t) :: cs, b => by
    show flattenT k t ++ flattenF (cs ++ b) = (flattenT k t ++ flattenF cs) ++ flattenF b
    rw [flattenF_append cs b, List.append_assoc]

mutual
theorem mem_flattenT_shape (k : Seg) (t : Tree) (l : Parts) (h : l ∈ flattenT k t) :
    ∃ l', l = k :: l' := by
  match t with
  | .node [] =>
    simp only [flattenT, List.mem_singleton] at h
    exact ⟨[], h⟩
  | .node (c :: cs) =>
    simp only [flattenT, List.mem_map] at h
    obtain ⟨l', _, rfl⟩ := h
    exact ⟨l', rfl⟩

theorem mem_flattenF_ne (cs : List (Seg × Tree)) (l : Parts) (h : l ∈ flattenF cs) :
    l ≠ [] := by
  match cs with
  | [] => simp [flattenF] at h
  | (k, t) :: cs =>
    simp only [flattenF, List.mem_append] at h
    rcases h with h | h
    · obtain ⟨l', rfl⟩ := mem_flattenT_shape k t l h
      simp
    · exact mem_flattenF_ne cs l h
end

mutual
theorem flattenT_ne_nil (k : Seg) (t : Tree) : flattenT k t ≠ [] := by
  match t with
  | .node [] => simp [flattenT]
  | .node (c :: cs) =>
    simp only [flattenT, ne_eq, List.map_eq_nil_iff]
    exact flattenF_cons_ne c cs

theorem flattenF_cons_ne (c : Seg × Tree) (cs : List (Seg × Tree)) : flattenF (c :: cs) ≠ [] := by
  obtain ⟨k, t⟩ := c
  simp only [flattenF, ne_eq, List.append_eq_nil]
  intro h
  exact flattenT_ne_nil k t h.1
end

/-- When the subtree is not a leaf, flattening through edge `k` prepends
`k` to every inner root-to-leaf path. -/
theorem flattenT_of_ne (s : Seg) (t : Tree) (h : t.children ≠ []) :
    flattenT s t = (flatten t).map (fun l => s :: l) := by
  match t with
  | .node [] => exact absurd rfl h
  | .node (c :: cs) => rfl

theorem setChild_ne_nil (cs : List (Seg × Tree)) (s : Seg) (t : Tree) :
    setChild cs s t ≠ [] := by
  match cs with
  | [] => simp [setChild]
  | (k, u) :: rest =>
    simp only [setChild]
    split <;> simp

theorem setChild_not_mem (cs : List (Seg × Tree)) (s : Seg) (t : Tree)
    (h : s ∉ cs.map Prod.fst) : setChild cs s t = cs ++ [(s, t)] := by
  induction cs with
  | nil => rfl
  | cons c rest ih =>
    obtain ⟨k, u⟩ := c
    simp only [List.map_cons, List.mem_cons] at h
    push_neg at h
    simp only [setChild, if_neg (Ne.symm h.1), List.cons_append, List.cons.injEq, true_and]
    exact ih h.2

theorem getChild_not_mem (cs : List (Seg × Tree)) (s : Seg)
    (h : s ∉ cs.map Prod.fst) : getChild cs s = .node [] := by
  induction cs with
  | nil => rfl
  | cons c rest ih =>
    obtain ⟨k, u⟩ := c
    simp only [List.map_cons, List.mem_cons] at h
    push_neg at h
    simp only [getChild, if_neg (Ne.symm h.1)]
    exact ih h.2

/-- A key present in a children list splits it around its first
occurrence; `getChild` reads that entry and `setChild` replaces it in
place. -/
theorem mem_key_decompose (cs : List (Seg × Tree)) (s : Seg)
    (h : s ∈ cs.map Prod.fst) :
    ∃ cs₁ u cs₂, cs = cs₁ ++ (s, u) :: cs₂ ∧ s ∉ cs₁.map Prod.fst ∧
      getChild cs s = u ∧ ∀ t, setChild cs s t = cs₁ ++ (s, t) :: cs₂ := by
  induction cs with
  | nil => simp at h
  | cons c rest ih =>
    obtain ⟨k, u⟩ := c
    by_cases hk : k = s
    · subst hk
      exact ⟨[], u, rest, rfl, by simp, by simp [getChild], fun t => by simp [setChild]⟩
    · simp only [List.map_cons, List.mem_cons] at h
      rcases h with h | h
      · exact absurd h.symm hk
      · obtain ⟨cs₁, v, cs₂, hcs, hnm, hget, hset⟩ := ih h
        refine ⟨(k, u) :: cs₁, v, cs₂, by simp [hcs], ?_, ?_, fun t => ?_⟩
        · simp only [List.map_cons, List.mem_cons]
          push_neg
          exact ⟨fun hh => hk hh.symm, hnm⟩
        · simp only [getChild, if_neg hk]
          exact hget
        · simp only [setChild, if_neg hk, List.cons_append, List.cons.injEq, true_and]
          exact hset t

/-- Membership in a children list split around one entry. -/
theorem mem_flattenF_decomp (cs₁ cs₂ : List (Seg × Tree)) (s : Seg) (t : Tree) (l : Parts) :
    l ∈ flattenF (cs₁ ++ (s, t) :: cs₂) ↔
      l ∈ flattenF cs₁ ∨ l ∈ flattenT s t ∨ l ∈ flattenF cs₂ := by
  rw [flattenF_append]
  have hmid : flattenF ((s, t) :: cs₂) = flattenT s t ++ flattenF cs₂ := rfl
  rw [hmid]
  simp only [List.mem_append]

/-- Inserting a fresh path into the empty tree produces a single chain
whose only root-to-leaf path is that path. -/
theorem flattenT_insertParts_nil : ∀ (rest : Parts) (s : Seg),
    flattenT s (insertParts rest (.node [])) = [s :: rest]
  | [], s => rfl
  | r :: rs, s => by
    show flattenT s (Tree.node [(r, insertParts rs (Tree.node []))]) = [s :: r :: rs]
    rw [flattenT_of_ne s _ (by simp [Tree.children])]
    have hch : flatten (Tree.node [(r, insertParts rs (Tree.node []))]) =
        flattenT r (insertParts rs (Tree.node [])) ++ [] := rfl
    rw [hch, flattenT_insertParts_nil rs r]
    simp

/-- Key lemma: inserting a non-empty segment path `parts` into a trie
whose existing root-to-leaf set is proper-prefix-independent of `parts`
adds exactly `parts` to the root-to-leaf set. -/
theorem mem_flatten_insertParts (parts : Parts) (t : Tree) (hne : parts ≠ [])
    (h₁ : ∀ l ∈ flatten t, ¬ properPre l parts)
    (h₂ : ∀ l ∈ flatten t, ¬ properPre parts l) :
    ∀ l, l ∈ flatten (insertParts parts t) ↔ l = parts ∨ l ∈ flatten t := by
  induction parts generalizing t with
  | nil => exact absurd rfl hne
  | cons s rest ih =>
    obtain ⟨cs⟩ := t
    by_cases hk : s ∈ cs.map Prod.fst
    · obtain ⟨cs₁, u, cs₂, rfl, hnm, hget, hset⟩ := mem_key_decompose cs s hk
      simp only [insertParts, hget, hset, flatten] at h₁ h₂ ⊢
      cases rest with
      | nil =>
        simp only [insertParts]
        have hmem : [s] ∈ flattenF (cs₁ ++ (s, u) :: cs₂) ∨
            (∃ l₀, l₀ ∈ flatten u ∧ l₀ ≠ [] ∧ s :: l₀ ∈ flattenF (cs₁ ++ (s, u) :: cs₂)) := by
          obtain ⟨cu⟩ := u
          cases cu with
          | nil =>
            left
            rw [mem_flattenF_decomp]
            simp [flattenT]
          | cons d ds =>
            right
            obtain ⟨l₀, hl₀⟩ := List.exists_mem_of_ne_nil _ (flattenF_cons_ne d ds)
            refine ⟨l₀, hl₀, mem_flattenF_ne _ _ hl₀, ?_⟩
            rw [mem_flattenF_decomp]
            refine Or.inr (Or.inl ?_)
            rw [flattenT_of_ne s _ (by simp [Tree.children])]
            exact List.mem_map.mpr ⟨l₀, hl₀, rfl⟩
        rcases hmem with hmem | ⟨l₀, hl₀, hl₀ne, hmem⟩
        · intro l
          constructor
          · exact fun h => Or.inr h
          · rintro (rfl | h)
            · exact hmem
            · exact h
        · exact absurd ⟨l₀, hl₀ne, rfl⟩ (h₂ (s :: l₀) hmem)
      | cons r rs =>
        obtain ⟨cu⟩ := u
        cases cu with
        | nil =>
          have hmem : [s] ∈ flattenF (cs₁ ++ (s, Tree.node []) :: cs₂) := by
            rw [mem_flattenF_decomp]
            simp [flattenT]
          exact absurd ⟨r :: rs, by simp, rfl⟩ (h₁ [s] hmem)
        | cons d ds =>
          have hmemu : ∀ l₀ ∈ flatten (Tree.node (d :: ds)),
              s :: l₀ ∈ flattenF (cs₁ ++ (s, Tree.node (d :: ds)) :: cs₂) := by
            intro l₀ hl₀
            rw [mem_flattenF_decomp]
            refine Or.inr (Or.inl ?_)
            rw [flattenT_of_ne s _ (by simp [Tree.children])]
            exact List.mem_map.mpr ⟨l₀, hl₀, rfl⟩
          have h₁' : ∀ l ∈ flatten (Tree.node (d :: ds)), ¬ properPre l (r :: rs) := by
            intro l hl ⟨q, hq, hql⟩
            exact h₁ (s :: l) (hmemu l hl) ⟨q, hq, by simp [← hql]⟩
          have h₂' : ∀ l ∈ flatten (Tree.node (d :: ds)), ¬ properPre (r :: rs) l := by
            intro l hl ⟨q, hq, hql⟩
            exact h₂ (s :: l) (hmemu l hl) ⟨q, hq, by simp [← hql]⟩
          have hih := ih (Tree.node (d :: ds)) (by simp) h₁' h₂'
          intro l
          have hchild : (insertParts (r :: rs) (Tree.node (d :: ds))).children ≠ [] := by
            simp only [insertParts, Tree.children]
            exact setChild_ne_nil _ _ _
          rw [mem_flattenF_decomp, mem_flattenF_decomp,
            flattenT_of_ne s _ hchild,
            flattenT_of_ne s (Tree.node (d :: ds)) (by simp [Tree.children])]
          simp only [List.mem_map, hih]
          constructor
          · rintro (h | h | h)
            · exact Or.inr (Or.inl h)
            · obtain ⟨a, ha, rfl⟩ := h
              rcases ha with rfl | hau
              · exact Or.inl rfl
              · exact Or.inr (Or.inr (Or.inl ⟨a, hau, rfl⟩))
            · exact Or.inr (Or.inr (Or.inr h))
          · rintro (rfl | h | h | h)
            · exact Or.inr (Or.inl ⟨r :: rs, Or.inl rfl, rfl⟩)
            · exact Or.inl h
            · obtain ⟨a, hau, rfl⟩ := h
              exact Or.inr (Or.inl ⟨a, Or.inr hau, rfl⟩)
            · exact Or.inr (Or.inr h)
    · simp only [insertParts, flatten, getChild_not_mem cs s hk, setChild_not_mem cs s _ hk]
      intro l
      rw [flattenF_append]
      have htail : flattenF [(s, insertParts rest (Tree.node []))] =
          flattenT s (insertParts rest (Tree.node [])) ++ [] := rfl
      rw [htail, flattenT_insertParts_nil rest s]
      simp only [List.append_nil, List.mem_append, List.mem_singleton]
      tauto

/-- Folding a list of non-empty, mutually proper-prefix-free segment paths
into a trie accumulates exactly those paths among the root-to-leaf set. -/
theorem mem_flatten_foldl (ps : List Parts) (t : Tree)
    (hne : ∀ l, (l ∈ flatten t ∨ l ∈ ps) → l ≠ [])
    (hpf : ∀ l₁ l₂, (l₁ ∈ flatten t ∨ l₁ ∈ ps) → (l₂ ∈ flatten t ∨ l₂ ∈ ps) →
      ¬ properPre l₁ l₂) :
    ∀ l, l ∈ flatten (ps.foldl (fun acc p => insertParts p acc) t) ↔
      l ∈ flatten t ∨ l ∈ ps := by
  induction ps generalizing t with
  | nil =>
    intro l
    simp
  | cons p ps ih =>
    have hpmem : p ∈ p :: ps := List.mem_cons_self p ps
    have hpne : p ≠ [] := hne p (Or.inr hpmem)
    have hins := mem_flatten_insertParts p t hpne
      (fun l hl => hpf l p (Or.inl hl) (Or.inr hpmem))
      (fun l hl => hpf p l (Or.inr hpmem) (Or.inl hl))
    have hsub : ∀ l, (l ∈ flatten (insertParts p t) ∨ l ∈ ps) →
        (l ∈ flatten t ∨ l ∈ p :: ps) := by
      intro l hl
      rcases hl with hl | hl
      · rcases (hins l).mp hl with rfl | h
        · exact Or.inr (List.mem_cons_self l ps)
        · exact Or.inl h
      · exact Or.inr (List.mem_cons_of_mem p hl)
    have hih := ih (insertParts p t) (fun l hl => hne l (hsub l hl))
      (fun l₁ l₂ ha hb => hpf l₁ l₂ (hsub l₁ ha) (hsub l₂ hb))
    intro l
    rw [List.foldl_cons, hih l, hins l]
    simp only [List.mem_cons]
    tauto

/-- C1 [corrected]. As stated the claim is false: when one path's segment
sequence is a proper prefix of another's (e.g. both `"a"` and `"a/b"`),
the shorter path stops being a root-to-leaf path of the tree, so the
round-trip loses it (`c1_counterexample`).  Amended claim: for every
finite set of relative paths — forward-slash separated with non-empty
segments, captured by `joinSegs (splitPath p) = p` and `splitPath p ≠ []`
— such that no path's segment sequence is a proper prefix of another's,
building the tree with `createTree` and flattening it back to its
root-to-leaf paths yields exactly the original set of paths, independent
of insertion order (membership equivalence holds for every input list,
hence for every ordering of the set). -/
theorem c1_createTree_flatten_round_trip (paths : List Str)
    (hne : ∀ p ∈ paths, splitPath p ≠ [])
    (hcanon : ∀ p ∈ paths, joinSegs (splitPath p) = p)
    (hpf : ∀ p ∈ paths, ∀ q ∈ paths, ¬ properPre (splitPath p) (splitPath q)) :
    ∀ l : Str, l ∈ (flatten (createTree paths)).map joinSegs ↔ l ∈ paths := by
  have hfold : ∀ l, l ∈ flatten (createTree paths) ↔ l ∈ paths.map splitPath := by
    intro l
    have hrw : createTree paths =
        (paths.map splitPath).foldl (fun acc p => insertParts p acc) (.node []) := by
      rw [List.foldl_map]
      rfl
    rw [hrw]
    rw [mem_flatten_foldl (paths.map splitPath) (.node [])]
    · have hemp : flatten (Tree.node []) = [] := rfl
      simp [hemp]
    · intro q hq
      rcases hq with hq | hq
      · simp [flatten, flattenF] at hq
      · obtain ⟨p, hp, rfl⟩ := List.mem_map.mp hq
        exact hne p hp
    · intro l₁ l₂ h₁ h₂
      rcases h₁ with h₁ | h₁
      · simp [flatten, flattenF] at h₁
      rcases h₂ with h₂ | h₂
      · simp [flatten, flattenF] at h₂
      obtain ⟨p, hp, rfl⟩ := List.mem_map.mp h₁
      obtain ⟨q, hq, rfl⟩ := List.mem_map.mp h₂
      exact hpf p hp q hq
  intro l
  rw [List.mem_map]
  constructor
  · rintro ⟨a, ha, rfl⟩
    obtain ⟨p, hp, rfl⟩ := List.mem_map.mp ((hfold a).mp ha)
    rw [hcanon p hp]
    exact hp
  · intro hl
    exact ⟨splitPath l, (hfold _).mpr (List.mem_map.mpr ⟨l, hl, rfl⟩), hcanon l hl⟩

/-- C1 counterexample: with paths `"a"` and `"a/b"` (both well-formed
relative paths), the flattened tree no longer contains `"a"`, so the
round-trip does not return the original set. -/
theorem c1_counterexample :
    ['a'] ∈ [['a'], ['a', '/', 'b']] ∧
    ['a'] ∉ (flatten (createTree [['a'], ['a', '/', 'b']])).map joinSegs := by
  decide

/-- C1 witness: the amended round trip evaluated at the concrete path set
`{"a", "b/c"}`. -/
theorem c1_witness :
    ['a'] ∈ (flatten (createTree [['a'], ['b', '/', 'c']])).map joinSegs ↔
      ['a'] ∈ [['a'], ['b', '/', 'c']] :=
  c1_createTree_flatten_round_trip [['a'], ['b', '/', 'c']]
    (by decide) (by decide) (by decide) ['a']

theorem mem_today_iff (now : Int) (files : List FileData) (f : FileData) :
    f ∈ (splitFilesByDate now files).today ↔
      f ∈ files ∧ now - f.lastModified < dayMs := by
  simp [splitFilesByDate, List.mem_filter]

theorem mem_lastWeek_iff (now : Int) (files : List FileData) (f : FileData) :
    f ∈ (splitFilesByDate now files).lastWeek ↔
      f ∈ files ∧ dayMs ≤ now - f.lastModified ∧ now - f.lastModified < 7 * dayMs := by
  simp [splitFilesByDate, List.mem_filter, and_assoc]

theorem mem_before_iff (now : Int) (files : List FileData) (f : FileData) :
    f ∈ (splitFilesByDate now files).before ↔
      f ∈ files ∧ 7 * dayMs ≤ now - f.lastModified := by
  simp [splitFilesByDate, List.mem_filter]

/-- C3 [confirmed]: `splitFilesByDate` places each input record in exactly
one of the three buckets — the buckets are pairwise disjoint and their
union covers the input — and a record of age strictly less than 24h is in
`today`, age in [24h, 7·24h) in `lastWeek`, and age ≥ 7·24h in `before`
(so ages of 23h, 25h and 8 days land in `today`, `lastWeek` and `before`
respectively). -/
theorem c3_splitFilesByDate_partition (now : Int) (files : List FileData) :
    (∀ f, f ∈ files ↔
      f ∈ (splitFilesByDate now files).today ∨
        f ∈ (splitFilesByDate now files).lastWeek ∨
        f ∈ (splitFilesByDate now files).before) ∧
    (∀ f, ¬ (f ∈ (splitFilesByDate now files).today ∧
      f ∈ (splitFilesByDate now files).lastWeek)) ∧
    (∀ f, ¬ (f ∈ (splitFilesByDate now files).today ∧
      f ∈ (splitFilesByDate now files).before)) ∧
    (∀ f, ¬ (f ∈ (splitFilesByDate now files).lastWeek ∧
      f ∈ (splitFilesByDate now files).before)) ∧
    (∀ f ∈ files,
      (now - f.lastModified < dayMs → f ∈ (splitFilesByDate now files).today) ∧
      (dayMs ≤ now - f.lastModified ∧ now - f.lastModified < 7 * dayMs →
        f ∈ (splitFilesByDate now files).lastWeek) ∧
      (7 * dayMs ≤ now - f.lastModified → f ∈ (splitFilesByDate now files).before)) := by
  refine ⟨?_, ?_, ?_, ?_, ?_⟩
  · intro f
    simp only [mem_today_iff, mem_lastWeek_iff, mem_before_iff]
    constructor
    · intro hf
      rcases lt_or_le (now - f.lastModified) dayMs with h | h
      · exact Or.inl ⟨hf, h⟩
      · rcases lt_or_le (now - f.lastModified) (7 * dayMs) with h7 | h7
        · exact Or.inr (Or.inl ⟨hf, h, h7⟩)
        · exact Or.inr (Or.inr ⟨hf, h7⟩)
    · rintro (⟨hf, -⟩ | ⟨hf, -⟩ | ⟨hf, -⟩) <;> exact hf
  · rintro f ⟨h1, h2⟩
    rw [mem_today_iff] at h1
    rw [mem_lastWeek_iff] at h2
    omega
  · rintro f ⟨h1, h2⟩
    rw [mem_today_iff] at h1
    rw [mem_before_iff] at h2
    have hd : (0 : Int) < dayMs := by decide
    omega
  · rintro f ⟨h1, h2⟩
    rw [mem_lastWeek_iff] at h1
    rw [mem_before_iff] at h2
    omega
  · intro f hf
    refine ⟨fun h => ?_, fun h => ?_, fun h => ?_⟩
    · exact (mem_today_iff now files f).mpr ⟨hf, h⟩
    · exact (mem_lastWeek_iff now files f).mpr ⟨hf, h.1, h.2⟩
    · exact (mem_before_iff now files f).mpr ⟨hf, h⟩

/-- C3 witness: at `now = 1700000000000`, a record modified 23 hours ago
is in `today`. -/
theorem c3_witness :
    (⟨['a'], 1699917200000, []⟩ : FileData) ∈
      (splitFilesByDate 1700000000000 [⟨['a'], 1699917200000, []⟩]).today :=
  ((c3_splitFilesByDate_partition 1700000000000
    [⟨['a'], 1699917200000, []⟩]).2.2.2.2 ⟨['a'], 1699917200000, []⟩
    (by decide)).1 (by decide)

/-- C4 counterexample: at `now = 1700000000000`, a record whose age is
exactly 24h (`lastModified = now - 86400000`) is in `lastWeek` and not in
`today`, and a record aged exactly 7·24h (`now - 604800000`) is in
`before` and not in `lastWeek` — the opposite of the claimed
more-recent-bucket placement. -/
theorem c4_counterexample :
    (⟨['a'], 1699913600000, []⟩ : FileData) ∈
      (splitFilesByDate 1700000000000
        [⟨['a'], 1699913600000, []⟩, ⟨['b'], 1699395200000, []⟩]).lastWeek ∧
    (⟨['a'], 1699913600000, []⟩ : FileData) ∉
      (splitFilesByDate 1700000000000
        [⟨['a'], 1699913600000, []⟩, ⟨['b'], 1699395200000, []⟩]).today ∧
    (⟨['b'], 1699395200000, []⟩ : FileData) ∈
      (splitFilesByDate 1700000000000
        [⟨['a'], 1699913600000, []⟩, ⟨['b'], 1699395200000, []⟩]).before ∧
    (⟨['b'], 1699395200000, []⟩ : FileData) ∉
      (splitFilesByDate 1700000000000
        [⟨['a'], 1699913600000, []⟩, ⟨['b'], 1699395200000, []⟩]).lastWeek := by
  decide

/-- C4 [corrected]. The today threshold is a strict `<` and the lastWeek
upper bound is a strict `<`, so a record exactly at a boundary belongs to
the OLDER of the two adjacent buckets: age exactly 24h goes to
`lastWeek` (not `today`) and age exactly 7·24h goes to `before` (not
`lastWeek`). -/
theorem c4_boundary_goes_to_older_bucket (now : Int) (files : List FileData)
    (f : FileData) (hf : f ∈ files) :
    (now - f.lastModified = dayMs →
      f ∈ (splitFilesByDate now files).lastWeek ∧
        f ∉ (splitFilesByDate now files).today) ∧
    (now - f.lastModified = 7 * dayMs →
      f ∈ (splitFilesByDate now files).before ∧
        f ∉ (splitFilesByDate now files).lastWeek) := by
  have hd : (0 : Int) < dayMs := by decide
  constructor
  · intro h
    constructor
    · exact (mem_lastWeek_iff now files f).mpr ⟨hf, by omega, by omega⟩
    · intro hmem
      have := (mem_today_iff now files f).mp hmem
      omega
  · intro h
    constructor
    · exact (mem_before_iff now files f).mpr ⟨hf, by omega⟩
    · intro hmem
      have := (mem_lastWeek_iff now files f).mp hmem
      omega

/-- C4 witness: the amended boundary placement evaluated at a record aged
exactly 24h. -/
theorem c4_witness :
    (⟨['a'], 1699913600000, []⟩ : FileData) ∈
      (splitFilesByDate 1700000000000 [⟨['a'], 1699913600000, []⟩]).lastWeek ∧
    (⟨['a'], 1699913600000, []⟩ : FileData) ∉
      (splitFilesByDate 1700000000000 [⟨['a'], 1699913600000, []⟩]).today :=
  (c4_boundary_goes_to_older_bucket 1700000000000
    [⟨['a'], 1699913600000, []⟩] ⟨['a'], 1699913600000, []⟩ (by decide)).1 (by decide)

theorem getD_map_double (x : Option Nat) : (x.map (2 * ·)).getD 0 = 2 * x.getD 0 := by
  cases x <;> simp

/-- C5 [confirmed]: `calculateTokenUsageAndCost` yields `totalCost = 0`
iff all four (defaulted) token counts are zero; doubling every count
doubles `totalCost`; each cost term is `tokens / 1_000_000` times its
fixed per-million rate (input 3.0, cache-write 3.75, cache-read 0.30,
output 15.0); and `totalCost` is the sum of the four terms. -/
theorem c5_cost_properties (u : Usage) :
    ((calculateTokenUsageAndCost u).totalCost = 0 ↔
      u.input_tokens = 0 ∧ u.cache_creation_input_tokens.getD 0 = 0 ∧
        u.cache_read_input_tokens.getD 0 = 0 ∧ u.output_tokens = 0) ∧
    (calculateTokenUsageAndCost (doubleUsage u)).totalCost =
      2 * (calculateTokenUsageAndCost u).totalCost ∧
    (calculateTokenUsageAndCost u).inputCost =
      ((u.input_tokens : ℚ) / 1000000) * INPUT_PRICE_PER_M ∧
    (calculateTokenUsageAndCost u).cacheWriteCost =
      ((u.cache_creation_input_tokens.getD 0 : ℚ) / 1000000) * CACHE_WRITE_PRICE_PER_M ∧
    (calculateTokenUsageAndCost u).cacheReadCost =
      ((u.cache_read_input_tokens.getD 0 : ℚ) / 1000000) * CACHE_READ_PRICE_PER_M ∧
    (calculateTokenUsageAndCost u).outputCost =
      ((u.output_tokens : ℚ) / 1000000) * OUTPUT_PRICE_PER_M ∧
    (calculateTokenUsageAndCost u).totalCost =
      (calculateTokenUsageAndCost u).inputCost + (calculateTokenUsageAndCost u).cacheWriteCost +
        (calculateTokenUsageAndCost u).cacheReadCost + (calculateTokenUsageAndCost u).outputCost := by
  refine ⟨?_, ?_, rfl, rfl, rfl, rfl, rfl⟩
  · simp only [calculateTokenUsageAndCost, INPUT_PRICE_PER_M, CACHE_WRITE_PRICE_PER_M,
      CACHE_READ_PRICE_PER_M, OUTPUT_PRICE_PER_M]
    constructor
    · intro h
      have hi : (0 : ℚ) ≤ (u.input_tokens : ℚ) / 1000000 * 3 := by positivity
      have hcc : (0 : ℚ) ≤ (u.cache_creation_input_tokens.getD 0 : ℚ) / 1000000 * (375 / 100) := by
        positivity
      have hcr : (0 : ℚ) ≤ (u.cache_read_input_tokens.getD 0 : ℚ) / 1000000 * (3 / 10) := by
        positivity
      have ho : (0 : ℚ) ≤ (u.output_tokens : ℚ) / 1000000 * 15 := by positivity
      have hi0 : ((u.input_tokens : ℚ)) = 0 := by nlinarith
      have hcc0 : ((u.cache_creation_input_tokens.getD 0 : ℚ)) = 0 := by nlinarith
      have hcr0 : ((u.cache_read_input_tokens.getD 0 : ℚ)) = 0 := by nlinarith
      have ho0 : ((u.output_tokens : ℚ)) = 0 := by nlinarith
      exact ⟨Nat.cast_eq_zero.mp hi0, Nat.cast_eq_zero.mp hcc0,
        Nat.cast_eq_zero.mp hcr0, Nat.cast_eq_zero.mp ho0⟩
    · rintro ⟨h1, h2, h3, h4⟩
      rw [h1, h2, h3, h4]
      norm_num
  · simp only [calculateTokenUsageAndCost, doubleUsage, getD_map_double]
    push_cast
    ring

/-- C7 [code_bug]: the `main` prologue of `src/unnamed/part_000` checks
`ANTHROPIC_API_KEY` FIRST and exits before the `response.md` deletion
step, so when the credential is absent a pre-existing `response.md`
survives the run — contradicting the claim (and the spec flags exactly
this ordering as a latent defect in §8/§9). -/
theorem c7_stale_response_survives :
    (mainPrologueV0 false ⟨true, true⟩).halt = Halt.exitKey ∧
    (mainPrologueV0 false ⟨true, true⟩).fs.responseExists = true :=
  ⟨rfl, rfl⟩

theorem pairwise_filter_of_all {α : Type} (l : List α) (p : α → Bool)
    (R : α → α → Prop) (h : ∀ a b, p a → p b → R a b) : (l.filter p).Pairwise R := by
  induction l with
  | nil => simp
  | cons x l ih =>
    by_cases hx : p x
    · simp only [List.filter_cons, hx, if_pos]
      refine List.Pairwise.cons ?_ ih
      intro b hb
      exact h x b hx (List.of_mem_filter hb)
    · simp [List.filter_cons, hx, ih]

/-- A stable sort leaves each comparator class in its original relative
order: filtering the sorted list by any class whose members all compare
`le` both ways returns the original filter. -/
theorem filter_mergeSort_eq {α : Type} (le : α → α → Bool)
    (htrans : ∀ a b c, le a b → le b c → le a c)
    (htotal : ∀ a b, le a b || le b a)
    (p : α → Bool) (hp : ∀ a b, p a → p b → le a b) (l : List α) :
    (l.mergeSort le).filter p = l.filter p := by
  have hpair : (l.filter p).Pairwise (fun a b => le a b) :=
    pairwise_filter_of_all l p _ hp
  have hsub : List.Sublist (l.filter p) (l.mergeSort le) :=
    List.sublist_mergeSort htrans htotal hpair (List.filter_sublist l)
  have hsub2 : List.Sublist ((l.filter p).filter p) ((l.mergeSort le).filter p) :=
    hsub.filter p
  rw [List.filter_eq_self.mpr (fun a ha => List.of_mem_filter ha)] at hsub2
  have hlen : ((l.mergeSort le).filter p).length = (l.filter p).length :=
    ((List.mergeSort_perm l le).filter p).length_eq
  exact (hsub2.eq_of_length hlen.symm).symm

/-- Evaluation of `mergeSort` on a two-element list. -/
theorem mergeSort_pair {α : Type} (le : α → α → Bool) (a b : α) :
    [a, b].mergeSort le = if le a b then [a, b] else [b, a] := by
  rw [List.mergeSort]
  simp [List.merge]

/-- C2 [corrected]. As stated the claim is false: the comparator looks up
the child's own full path in the token map, so a DIRECTORY — whose path
is never a key of the file-keyed map — always counts as zero rather than
as the aggregate of its descendants (`c2_counterexample`).  Amended
claim: at every directory level `printTreeWithTokens` orders the children
by descending RECORDED token count of the child's own full path, children
with no recorded count (in particular every directory) being treated as
zero and sorting last, with ties broken stably (original key order
preserved — filtering the rendered order by any count value returns the
original key order). -/
theorem c2_children_sorted_desc_recorded (m : TokenMap) (path : Str)
    (cs : List (Seg × Tree)) :
    (sortChildren m path cs).Pairwise
      (fun a b => tokOr0 m (joinPath path b.1) ≤ tokOr0 m (joinPath path a.1)) ∧
    ∀ v : Nat,
      (sortChildren m path cs).filter (fun e => tokOr0 m (joinPath path e.1) == v) =
        cs.filter (fun e => tokOr0 m (joinPath path e.1) == v) := by
  have htrans : ∀ a b c, childLe m path a b → childLe m path b c → childLe m path a c := by
    intro a b c hab hbc
    simp only [childLe, decide_eq_true_eq] at hab hbc ⊢
    omega
  have htotal : ∀ a b, childLe m path a b || childLe m path b a := by
    intro a b
    simp only [childLe]
    rcases le_total (tokOr0 m (joinPath path b.1)) (tokOr0 m (joinPath path a.1)) with h | h
    · simp [h]
    · simp [h]
  constructor
  · have hs := List.sorted_mergeSort htrans htotal cs
    exact hs.imp fun h => by simpa [childLe, decide_eq_true_eq] using h
  · intro v
    refine filter_mergeSort_eq (childLe m path) htrans htotal _ ?_ cs
    intro a b ha hb
    simp only [beq_iff_eq] at ha hb
    simp [childLe, ha, hb]

/-- C2 counterexample: with files `d/x` (1000 tokens) and `f` (5 tokens),
the render at the root lists `f` before `d` although the aggregate token
count of directory `d` (1000) exceeds that of `f` (5) — the sort ignores
descendants of a directory. -/
theorem c2_counterexample :
    ((sortChildren [(['d', '/', 'x'], 1000), (['f'], 5)] []
        (createTree [['d', '/', 'x'], ['f']]).children).map Prod.fst = [['f'], ['d']]) ∧
    aggT [(['d', '/', 'x'], 1000), (['f'], 5)] ['f']
        (getChild (createTree [['d', '/', 'x'], ['f']]).children ['f']) <
      aggT [(['d', '/', 'x'], 1000), (['f'], 5)] ['d']
        (getChild (createTree [['d', '/', 'x'], ['f']]).children ['d']) := by
  constructor
  · have hcs : (createTree [['d', '/', 'x'], ['f']]).children =
        [(['d'], Tree.node [(['x'], Tree.node [])]), (['f'], Tree.node [])] := rfl
    rw [hcs, sortChildren, mergeSort_pair]
    have hc : childLe [(['d', '/', 'x'], 1000), (['f'], 5)] []
        (['d'], Tree.node [(['x'], Tree.node [])]) (['f'], Tree.node []) = false := by
      decide
    rw [hc]
    simp
  · decide

theorem lexLe_total : ∀ a b : Str, (lexLe a b || lexLe b a) = true
  | [], b => by simp [lexLe]
  | a :: as, [] => by simp [lexLe]
  | a :: as, b :: bs => by
    by_cases h : a = b
    · subst h
      simp only [lexLe, if_pos rfl]
      exact lexLe_total as bs
    · simp only [lexLe, if_neg h, if_neg (Ne.symm h)]
      rcases lt_or_gt_of_ne h with hlt | hgt
      · simp [hlt]
      · simp [hgt]

theorem lexLe_trans : ∀ a b c : Str,
    lexLe a b = true → lexLe b c = true → lexLe a c = true
  | [], _, _ => by
    intro _ _
    simp [lexLe]
  | x :: xs, [], _ => by
    intro h _
    simp [lexLe] at h
  | x :: xs, y :: ys, [] => by
    intro _ h
    simp [lexLe] at h
  | x :: xs, y :: ys, z :: zs => by
    simp only [lexLe]
    by_cases hxy : x = y
    · subst hxy
      by_cases hxz : x = z
      · subst hxz
        simp only [if_pos rfl]
        exact lexLe_trans xs ys zs
      · simp only [if_pos rfl, if_neg hxz]
        exact fun _ h => h
    · by_cases hyz : y = z
      · subst hyz
        simp only [if_neg hxy]
        exact fun h _ => h
      · simp only [if_neg hxy, if_neg hyz, decide_eq_true_eq]
        intro h1 h2
        have hxz : x < z := lt_trans h1 h2
        rw [if_neg (ne_of_lt hxz), decide_eq_true_eq]
        exact hxz

/-- C8 [corrected]. As stated over both cited variants the claim is
false: only the `part_000`/`part_001` `getFilesPaths` appends `.sort()`
to the glob call; the `src/index.ts` variant returns the glob library's
list unchanged, and that order is not guaranteed sorted
(`c8_counterexample`).  Amended claim: the `part_000`/`part_001`
`getFilesPaths` returns a lexicographically sorted permutation of the
matched paths (hence deterministic on an unchanged file set), while the
`index.ts` variant returns the matcher's output order unchanged. -/
theorem c8_path_matcher_sorted :
    (∀ globbed : List Str,
      (getFilesPathsV0 globbed).Pairwise (fun a b => lexLe a b = true) ∧
      List.Perm (getFilesPathsV0 globbed) globbed) ∧
    (∀ globbed : List Str, getFilesPathsIdx globbed = globbed) := by
  refine ⟨fun g => ⟨?_, List.mergeSort_perm g lexLe⟩, fun _ => rfl⟩
  exact List.sorted_mergeSort
    (fun a b c => lexLe_trans a b c) (fun a b => lexLe_total a b) g

/-- C8 counterexample: the `index.ts` `getFilesPaths` leaves the glob
result `["b", "a"]` unsorted. -/
theorem c8_counterexample :
    ¬ (getFilesPathsIdx [['b'], ['a']]).Pairwise (fun a b => lexLe a b = true) := by
  decide

theorem userWrap_isEmpty (p : Str) : (userWrap p).isEmpty = false := rfl

theorem fileTreeWrap_isEmpty (s : Str) : (fileTreeWrap s).isEmpty = false := rfl

/-- C6 [corrected]. As stated over both cited variants the claim is
false: in the `src/index.ts` assembly the user's free-text is the FIRST
segment and every following segment — including the last — carries a
cache marker (`c6_counterexample`).  Amended claim: in the
`part_000` and `part_001` variants the ordered segment list ends with the
user's free-text segment, which is never cache-marked, and every earlier
segment is cache-marked; in the `index.ts` variant the user's free-text
segment comes first (still never cache-marked) and every following,
slowly-changing segment is cache-marked. -/
theorem c6_user_text_placement (rules treeS files prompt todayS lastWeekS beforeS : Str) :
    ((assembleV0 rules treeS files prompt).getLast? = some ⟨userWrap prompt, false⟩ ∧
      ∀ s ∈ (assembleV0 rules treeS files prompt).dropLast, s.cached = true) ∧
    ((assembleV1 beforeS lastWeekS todayS treeS prompt).getLast? =
        some ⟨userWrap prompt, false⟩ ∧
      ∀ s ∈ (assembleV1 beforeS lastWeekS todayS treeS prompt).dropLast, s.cached = true) ∧
    ((assembleIdx prompt treeS todayS lastWeekS beforeS).head? = some ⟨prompt, false⟩ ∧
      ∀ s ∈ (assembleIdx prompt treeS todayS lastWeekS beforeS).tail, s.cached = true) := by
  have hV0 : assembleV0 rules treeS files prompt =
      [⟨rulesWrap rules, true⟩, ⟨fileTreeWrap treeS, true⟩, ⟨filesWrap files, true⟩] ++
        [⟨userWrap prompt, false⟩] := rfl
  have hV1 : assembleV1 beforeS lastWeekS todayS treeS prompt =
      ([⟨beforeS, true⟩, ⟨lastWeekS, true⟩, ⟨todayS, true⟩,
        ⟨fileTreeWrap treeS, true⟩] : List Segment).filter (fun s => !s.text.isEmpty) ++
        [⟨userWrap prompt, false⟩] := by
    show (([⟨beforeS, true⟩, ⟨lastWeekS, true⟩, ⟨todayS, true⟩,
        ⟨fileTreeWrap treeS, true⟩] : List Segment) ++
        ([⟨userWrap prompt, false⟩] : List Segment)).filter
        (fun s => !s.text.isEmpty) = _
    rw [List.filter_append]
    have hu : List.filter (fun s => !s.text.isEmpty)
        ([⟨userWrap prompt, false⟩] : List Segment) = [⟨userWrap prompt, false⟩] := by
      simp [List.filter_cons, userWrap_isEmpty]
    rw [hu]
  refine ⟨⟨?_, ?_⟩, ⟨?_, ?_⟩, ⟨rfl, ?_⟩⟩
  · rw [hV0, List.getLast?_concat]
  · rw [hV0, List.dropLast_concat]
    intro s hs
    simp only [List.mem_cons, List.not_mem_nil, or_false] at hs
    rcases hs with rfl | rfl | rfl <;> rfl
  · rw [hV1, List.getLast?_concat]
  · rw [hV1, List.dropLast_concat]
    intro s hs
    have hs2 := List.mem_of_mem_filter hs
    simp only [List.mem_cons, List.not_mem_nil, or_false] at hs2
    rcases hs2 with rfl | rfl | rfl | rfl <;> rfl
  · intro s hs
    simp only [assembleIdx, List.tail_cons, List.mem_cons, List.mem_map] at hs
    rcases hs with rfl | ⟨x, _, rfl⟩ <;> rfl

/-- C6 counterexample: in the `index.ts` assembly with prompt `"p"`, tree
`"t"` and non-empty recency blocks `"a"`, `"b"`, `"c"`, the LAST segment
is the cache-marked `"c"` block, not the user's free text. -/
theorem c6_counterexample :
    (assembleIdx ['p'] ['t'] ['a'] ['b'] ['c']).getLast? = some ⟨['c'], true⟩ := by
  rfl

/-- C6 witness: the amended placement at concrete inputs — the part_001
assembly ends with the unmarked wrapped prompt, and a segment in the
cached prefix of the part_000 assembly is marked. -/
theorem c6_witness :
    (assembleV1 ['b'] ['l'] ['d'] ['t'] ['p']).getLast? =
        some ⟨userWrap ['p'], false⟩ ∧
    (⟨rulesWrap ['r'], true⟩ : Segment).cached = true :=
  ⟨((c6_user_text_placement ['r'] ['t'] ['f'] ['p'] ['d'] ['l'] ['b']).2.1).1,
   ((c6_user_text_placement ['r'] ['t'] ['f'] ['p'] ['d'] ['l'] ['b']).1).2
     ⟨rulesWrap ['r'], true⟩ (by decide)⟩

theorem runFromV0_cons (st : StState) (e : Ev) (evs : List Ev) :
    runFromV0 st (e :: evs) =
      ((runFromV0 (stepV0 st e).1 evs).1,
        (stepV0 st e).2 ++ (runFromV0 (stepV0 st e).1 evs).2) := rfl

theorem runFromV0_append (st : StState) (a b : List Ev) :
    runFromV0 st (a ++ b) =
      ((runFromV0 (runFromV0 st a).1 b).1,
        (runFromV0 st a).2 ++ (runFromV0 (runFromV0 st a).1 b).2) := by
  induction a generalizing st with
  | nil => simp [runFromV0]
  | cons e a ih =>
    rw [List.cons_append, runFromV0_cons, ih, runFromV0_cons st e a]
    simp [List.append_assoc]

theorem runFromV0_think_thinking (ts : List Str) :
    runFromV0 .thinking (ts.map Ev.think) = (.thinking, ts.map Out.thinkOut) := by
  induction ts with
  | nil => rfl
  | cons t ts ih => simp [runFromV0, stepV0, ih]

theorem runFromV0_text_text (xs : List Str) :
    runFromV0 .text (xs.map Ev.text) = (.text, xs.map Out.textOut) := by
  induction xs with
  | nil => rfl
  | cons x xs ih => simp [runFromV0, stepV0, ih]

theorem runFromV0_start_texts (xs : List Str) :
    (runFromV0 .start (xs.map Ev.text)).2 = xs.map Out.textOut := by
  cases xs with
  | nil => rfl
  | cons x xs => simp [runFromV0, stepV0, runFromV0_text_text xs]

theorem runFromV0_thinking_mixed (ts xs : List Str) :
    (runFromV0 .thinking (ts.map Ev.think ++ xs.map Ev.text)).2 =
      ts.map Out.thinkOut ++
        (if xs = [] then [] else Out.markClose :: xs.map Out.textOut) := by
  rw [runFromV0_append, runFromV0_think_thinking ts]
  cases xs with
  | nil => simp [runFromV0]
  | cons x xs => simp [runFromV0, stepV0, runFromV0_text_text xs]

theorem runFromIdx_cons (st : StState) (e : Ev) (evs : List Ev) :
    runFromIdx st (e :: evs) =
      ((runFromIdx (stepIdx st e).1 evs).1,
        (stepIdx st e).2 ++ (runFromIdx (stepIdx st e).1 evs).2) := rfl

theorem runFromIdx_append (st : StState) (a b : List Ev) :
    runFromIdx st (a ++ b) =
      ((runFromIdx (runFromIdx st a).1 b).1,
        (runFromIdx st a).2 ++ (runFromIdx (runFromIdx st a).1 b).2) := by
  induction a generalizing st with
  | nil => simp [runFromIdx]
  | cons e a ih =>
    rw [List.cons_append, runFromIdx_cons, ih, runFromIdx_cons st e a]
    simp [List.append_assoc]

theorem runFromIdx_think_thinking (ts : List Str) :
    runFromIdx .thinking (ts.map Ev.think) = (.thinking, ts.map Out.thinkOut) := by
  induction ts with
  | nil => rfl
  | cons t ts ih => simp [runFromIdx, stepIdx, ih]

theorem runFromIdx_text_text (xs : List Str) :
    runFromIdx .text (xs.map Ev.text) = (.text, xs.map Out.textOut) := by
  induction xs with
  | nil => rfl
  | cons x xs ih => simp [runFromIdx, stepIdx, ih]

theorem runFromIdx_start_texts (xs : List Str) :
    (runFromIdx .start (xs.map Ev.text)).2 = xs.map Out.textOut := by
  induction xs with
  | nil => rfl
  | cons x xs ih => simp [runFromIdx, stepIdx, ih]

theorem runFromIdx_thinking_mixed (ts xs : List Str) :
    (runFromIdx .thinking (ts.map Ev.think ++ xs.map Ev.text)).2 =
      ts.map Out.thinkOut ++
        (if xs = [] then [] else Out.markClose :: xs.map Out.textOut) := by
  rw [runFromIdx_append, runFromIdx_think_thinking ts]
  cases xs with
  | nil => simp [runFromIdx]
  | cons x xs => simp [runFromIdx, stepIdx, runFromIdx_text_text xs]

/-- C9 [corrected]. As stated the claim is false: when thinking chunks
occur but NO text chunk follows, the handlers never emit the closing
marker (`c9_counterexample`).  Amended claim: for every streamed sequence
whose thinking chunks all precede its text chunks, the terminal output of
both handler variants is — in order — the `<THINKING>` marker
immediately before the first thinking chunk (present iff at least one
thinking chunk occurs), all thinking chunks, the `</THINKING>` marker
immediately before the first text chunk (present iff at least one
thinking chunk AND at least one text chunk occur), then all text chunks;
in particular each marker appears at most once and neither appears when
no thinking chunk occurs. -/
theorem c9_thinking_markers (ts xs : List Str) :
    outV0 (ts.map Ev.think ++ xs.map Ev.text) =
      (if ts = [] then [] else Out.markOpen :: ts.map Out.thinkOut) ++
        ((if ts = [] ∨ xs = [] then [] else [Out.markClose]) ++ xs.map Out.textOut) ∧
    outIdx (ts.map Ev.think ++ xs.map Ev.text) =
      (if ts = [] then [] else Out.markOpen :: ts.map Out.thinkOut) ++
        ((if ts = [] ∨ xs = [] then [] else [Out.markClose]) ++ xs.map Out.textOut) := by
  constructor
  · cases ts with
    | nil =>
      simp only [List.map_nil, List.nil_append, outV0, runFromV0_start_texts]
      simp
    | cons t ts =>
      have hstep : outV0 (Ev.think t :: (ts.map Ev.think ++ xs.map Ev.text)) =
          [Out.markOpen, Out.thinkOut t] ++
            (runFromV0 .thinking (ts.map Ev.think ++ xs.map Ev.text)).2 := by
        simp [outV0, runFromV0, stepV0]
      simp only [List.map_cons, List.cons_append] at hstep ⊢
      rw [hstep, runFromV0_thinking_mixed]
      cases xs with
      | nil => simp
      | cons x xs => simp
  · cases ts with
    | nil =>
      simp only [List.map_nil, List.nil_append, outIdx, runFromIdx_start_texts]
      simp
    | cons t ts =>
      have hstep : outIdx (Ev.think t :: (ts.map Ev.think ++ xs.map Ev.text)) =
          [Out.markOpen, Out.thinkOut t] ++
            (runFromIdx .thinking (ts.map Ev.think ++ xs.map Ev.text)).2 := by
        simp [outIdx, runFromIdx, stepIdx]
      simp only [List.map_cons, List.cons_append] at hstep ⊢
      rw [hstep, runFromIdx_thinking_mixed]
      cases xs with
      | nil => simp
      | cons x xs => simp

/-- C9 counterexample: a stream with one thinking chunk and no text chunk
emits the opening marker but never the closing one, although the claim
requires both markers exactly once whenever a thinking chunk occurs. -/
theorem c9_counterexample :
    (outV0 [Ev.think ['a']]).count Out.markOpen = 1 ∧
    (outV0 [Ev.think ['a']]).count Out.markClose = 0 := by
  decide

theorem splitAux_trailing : ∀ (p acc : Str),
    splitAux (p ++ ['/']) acc = splitAux p acc ++ [[]]
  | [], acc => by simp [splitAux]
  | c :: cs, acc => by
    by_cases h : c = '/'
    · subst h
      simp [splitAux, splitAux_trailing cs []]
    · simp [splitAux, h, splitAux_trailing cs (c :: acc)]

theorem jsSplit_leading (p : Str) : jsSplit ('/' :: p) = [] :: jsSplit p := by
  simp [jsSplit, splitAux]

theorem splitPath_leading (p : Str) : splitPath ('/' :: p) = splitPath p := by
  simp [splitPath, jsSplit_leading]

theorem splitPath_trailing (p : Str) : splitPath (p ++ ['/']) = splitPath p := by
  simp [splitPath, jsSplit, splitAux_trailing]

theorem splitPath_dslash (u v : Str) :
    splitPath (u ++ '/' :: '/' :: v) = splitPath (u ++ '/' :: v) := by
  suffices h : ∀ (u acc : Str),
      (splitAux (u ++ '/' :: '/' :: v) acc).filter (fun s => !s.isEmpty) =
        (splitAux (u ++ '/' :: v) acc).filter (fun s => !s.isEmpty) from h u []
  intro u
  induction u with
  | nil =>
    intro acc
    simp [splitAux, List.filter_cons]
  | cons c cs ih =>
    intro acc
    by_cases h : c = '/'
    · subst h
      simp [splitAux, List.filter_cons, ih []]
    · simp only [List.cons_append, splitAux, if_neg h]
      exact ih (c :: acc)

theorem splitPath_all_slash : ∀ p : Str, (∀ c ∈ p, c = '/') → splitPath p = []
  | [], _ => rfl
  | c :: cs, h => by
    have hc : c = '/' := h c (List.mem_cons_self c cs)
    subst hc
    rw [splitPath_leading]
    exact splitPath_all_slash cs fun d hd => h d (List.mem_cons_of_mem _ hd)

/-- Function `createTree` depends only on the split segment lists of its inputs. -/
theorem createTree_eq_of_map_splitPath (ps₁ ps₂ : List Str)
    (h : ps₁.map splitPath = ps₂.map splitPath) : createTree ps₁ = createTree ps₂ := by
  have e₁ : createTree ps₁ =
      (ps₁.map splitPath).foldl (fun t l => insertParts l t) (.node []) := by
    rw [List.foldl_map]
    rfl
  have e₂ : createTree ps₂ =
      (ps₂.map splitPath).foldl (fun t l => insertParts l t) (.node []) := by
    rw [List.foldl_map]
    rfl
  rw [e₁, e₂, h]

/-- C10 [confirmed]: `createTree` discards empty path segments — adding a
leading `/`, a trailing `/`, or doubling an interior `/` in any one path
of the list leaves the tree identical, and a path consisting only of `/`
characters contributes nothing at all. -/
theorem c10_createTree_ignores_empty_segments :
    (∀ (ps₁ ps₂ : List Str) (p : Str),
      createTree (ps₁ ++ ('/' :: p) :: ps₂) = createTree (ps₁ ++ p :: ps₂)) ∧
    (∀ (ps₁ ps₂ : List Str) (p : Str),
      createTree (ps₁ ++ (p ++ ['/']) :: ps₂) = createTree (ps₁ ++ p :: ps₂)) ∧
    (∀ (ps₁ ps₂ : List Str) (u v : Str),
      createTree (ps₁ ++ (u ++ '/' :: '/' :: v) :: ps₂) =
        createTree (ps₁ ++ (u ++ '/' :: v) :: ps₂)) ∧
    (∀ (ps₁ ps₂ : List Str) (p : Str), (∀ c ∈ p, c = '/') →
      createTree (ps₁ ++ p :: ps₂) = createTree (ps₁ ++ ps₂)) := by
  refine ⟨?_, ?_, ?_, ?_⟩
  · intro ps₁ ps₂ p
    apply createTree_eq_of_map_splitPath
    simp [splitPath_leading]
  · intro ps₁ ps₂ p
    apply createTree_eq_of_map_splitPath
    simp [splitPath_trailing]
  · intro ps₁ ps₂ u v
    apply createTree_eq_of_map_splitPath
    simp [splitPath_dslash]
  · intro ps₁ ps₂ p hp
    show (ps₁ ++ p :: ps₂).foldl (fun t q => insertParts (splitPath q) t) (.node []) =
      (ps₁ ++ ps₂).foldl (fun t q => insertParts (splitPath q) t) (.node [])
    rw [List.foldl_append, List.foldl_append, List.foldl_cons, splitPath_all_slash p hp]
    rfl

/-- C10 witness: adding the all-slash path `"//"` to the set `{"a"}`
leaves the tree unchanged. -/
theorem c10_witness : createTree [['a'], ['/', '/']] = createTree [['a']] :=
  c10_createTree_ignores_empty_segments.2.2.2 [['a']] [] ['/', '/'] (by decide)

end Codeplan
